import Mathlib

/-!
Verification development for the wire format of the `serde-postcard-ts`
repository.  The repository's `src/test-fixtures` crate (types.rs, main.rs)
declares the fixture data model and sample values and writes each sample's
encoding to a golden binary file.  The codec itself (the Encode/Decode pair
of the compact schema-free binary format) is not part of the sources under
`src/`; every definition below that embeds codec behaviour is therefore
modelled from the specification (spec.md §3, §4, §6, §7), as noted in its
doc comment.  The fixture data model (the shapes of types.rs) is embedded
from the source.
-/

/-- Modelled from the spec: the decode-time error kinds of §7.  The codec
source is not under `src/`.  `invalidBool` covers rejection of a boolean
byte other than 0 or 1; §7 does not name that error, but §2 requires the
codec to be a bijective mapping and §3 fixes the boolean encoding unit to
the two bytes 0x00/0x01, so a strict boolean decoder is modelled. -/
inductive DecodeError where
  | truncatedInput
  | malformedVarint
  | unknownVariant
  | invalidOptionTag
  | invalidUtf8
  | invalidBool
  deriving DecidableEq

/-- Modelled from the spec: maximal number of 7-bit groups an unsigned
varint of bit width `w` may span (§4.1: "the minimal number of groups
needed", e.g. 19 groups for 128-bit, 10 groups for 64-bit). -/
def maxGroups (w : Nat) : Nat := (w + 6) / 7

/-- Fuel-indexed worker for `uvarEncode`.  Fuel `n` always suffices for
value `n` because the remaining value is divided by 128 at every step;
the fuel-0 branch is unreachable for `n ≤ fuel` except at `n = 0`, where
it agrees with the terminating branch. -/
def uvarEncodeFuel : Nat → Nat → List Nat
  | 0, n => [n % 128]
  | fuel + 1, n =>
    if n < 128 then [n]
    else (n % 128 + 128) :: uvarEncodeFuel fuel (n / 128)

/-- Modelled from the spec: unsigned varint encode (§4.1).  Repeatedly emit
the 7 low bits of the remaining value per byte, least-significant group
first; every byte except the last carries the continuation bit (0x80);
zero is the single byte 0x00. -/
def uvarEncode (n : Nat) : List Nat := uvarEncodeFuel n n

/-- Worker for `uvarDecode`: remaining group budget, current shift (in
bits), accumulator, remaining buffer. -/
def uvarDecodeGo (w : Nat) : Nat → Nat → Nat → List Nat → Except DecodeError (Nat × List Nat)
  | _, _, _, [] => .error .malformedVarint
  | 0, _, _, _ :: _ => .error .malformedVarint
  | groups + 1, shift, acc, b :: rest =>
    if b < 128 then
      if acc + b * 2 ^ shift < 2 ^ w then .ok (acc + b * 2 ^ shift, rest)
      else .error .malformedVarint
    else uvarDecodeGo w groups (shift + 7) (acc + b % 128 * 2 ^ shift) rest

/-- Modelled from the spec: unsigned varint decode at bit width `w`
(§4.1).  Reads 7-bit groups least-significant first while the high bit is
set, accepts at most `maxGroups w` groups, and fails with
`MalformedVarint` when the buffer is exhausted before a terminating byte,
when the group budget is exceeded, or when the decoded magnitude does not
fit in `w` bits.  Returns the value and the unconsumed suffix. -/
def uvarDecode (w : Nat) (bytes : List Nat) : Except DecodeError (Nat × List Nat) :=
  uvarDecodeGo w (maxGroups w) 0 0 bytes

/-- Reference reading of a varint: split off up to `g` 7-bit groups, ending
at the first byte with a clear high bit, with no width check.  Returns the
accumulated value and the unconsumed suffix, or `none` when the buffer
ends (or the group budget runs out) before a terminating byte. -/
def varintSplit : Nat → List Nat → Option (Nat × List Nat)
  | _, [] => none
  | 0, _ :: _ => none
  | g + 1, b :: rest =>
    if b < 128 then some (b, rest)
    else
      match varintSplit g rest with
      | some (v, r) => some (b % 128 + 128 * v, r)
      | none => none

/-- Modelled from the spec: the zig-zag transform of §4.1 — double the
magnitude and subtract 1 if negative, so small-magnitude values of either
sign get small unsigned codes. -/
def zigzag (i : Int) : Nat :=
  if 0 ≤ i then 2 * i.toNat else 2 * (-i).toNat - 1

/-- Modelled from the spec: inverse of the zig-zag transform, applied by
signed decode after unsigned decode (§4.1). -/
def unzigzag (n : Nat) : Int :=
  if n % 2 = 0 then ((n / 2 : Nat) : Int) else -(((n + 1) / 2 : Nat) : Int)

/-- Little-endian byte decomposition: `k` bytes of `n` (§3, floating point
is fixed-width little-endian IEEE 754, passed through byte-for-byte per
§4.3; the model carries the raw bit pattern). -/
def leBytes : Nat → Nat → List Nat
  | 0, _ => []
  | k + 1, n => n % 256 :: leBytes k (n / 256)

/-- Little-endian byte recomposition, inverse of `leBytes`. -/
def fromLE : List Nat → Nat
  | [] => 0
  | b :: bs => b + 256 * fromLE bs

/-- Read exactly `n` raw bytes, failing with `TruncatedInput` when the
buffer ends early (§4.2). -/
def readN : Nat → List Nat → Except DecodeError (List Nat × List Nat)
  | 0, bytes => .ok ([], bytes)
  | _ + 1, [] => .error .truncatedInput
  | n + 1, b :: rest =>
    match readN n rest with
    | .ok (bs, r) => .ok (b :: bs, r)
    | .error e => .error e

/-- Is `b` a UTF-8 continuation byte (0x80..0xBF)? -/
def isCont (b : Nat) : Bool := 128 ≤ b && b < 192

/-- UTF-8 validity of a byte sequence per RFC 3629 (shortest forms only,
surrogates excluded); §4.2 requires text to be valid UTF-8 and decode to
fail with `InvalidUtf8` otherwise. -/
def validUtf8 : List Nat → Bool
  | [] => true
  | b :: rest =>
    if b < 0x80 then validUtf8 rest
    else if b < 0xC2 then false
    else if b < 0xE0 then
      match rest with
      | b2 :: rest2 => isCont b2 && validUtf8 rest2
      | [] => false
    else if b < 0xF0 then
      match rest with
      | b2 :: b3 :: rest3 =>
        (if b = 0xE0 then decide (0xA0 ≤ b2) && decide (b2 < 0xC0)
         else if b = 0xED then decide (0x80 ≤ b2) && decide (b2 < 0xA0)
         else isCont b2) && isCont b3 && validUtf8 rest3
      | _ => false
    else if b < 0xF5 then
      match rest with
      | b2 :: b3 :: b4 :: rest4 =>
        (if b = 0xF0 then decide (0x90 ≤ b2) && decide (b2 < 0xC0)
         else if b = 0xF4 then decide (0x80 ≤ b2) && decide (b2 < 0x90)
         else isCont b2) && isCont b3 && isCont b4 && validUtf8 rest4
      | _ => false
    else false

/-- Modelled from the spec: the closed set of shape kinds of §3.  Records
cover named-field structs, tuples, tuple structs, newtype wrappers (a
one-field record) and unit structs (an empty record), all of which §3
encodes as the plain concatenation of their parts with no extra framing.
An enum is the list of its variants' field-schema lists, in declaration
order. -/
inductive Schema where
  | sBool
  | sUInt (w : Nat)
  | sInt (w : Nat)
  | sF32
  | sF64
  | sChar
  | sString
  | sBytes
  | sSeq (s : Schema)
  | sArray (n : Nat) (s : Schema)
  | sOption (s : Schema)
  | sMap (k v : Schema)
  | sRecord (fields : List Schema)
  | sEnum (variants : List (List Schema))

/-- Modelled from the spec: in-memory values of the data model of §3.
Floats are carried as their raw IEEE 754 bit patterns (§4.3 requires
byte-for-byte pass-through), a char as its Unicode scalar value, a string
as its UTF-8 bytes, a mapping as its entry list in iteration order. -/
inductive Value where
  | vBool (b : Bool)
  | vUInt (n : Nat)
  | vInt (i : Int)
  | vF32 (bits : Nat)
  | vF64 (bits : Nat)
  | vChar (c : Nat)
  | vString (bs : List Nat)
  | vBytes (bs : List Nat)
  | vSeq (xs : List Value)
  | vArray (xs : List Value)
  | vOption (o : Option Value)
  | vMap (es : List (Value × Value))
  | vRecord (fs : List Value)
  | vEnum (i : Nat) (ps : List Value)

mutual
/-- Modelled from the spec: `Encode(value, schema) → bytes` (§6), composed
per shape kind exactly as §3/§4 prescribe: booleans one byte 0x00/0x01,
integers as (zig-zag) varints, floats as little-endian fixed-width bytes,
char as its codepoint varint, strings/byte sequences and dynamic
sequences/mappings with an unsigned varint count followed by their
elements, arrays/records as plain concatenation, options with a one-byte
discriminant, enums as the variant-index varint followed by the payload.
Encode never fails and depends only on the value, never on the schema. -/
def encodeValue : Value → List Nat
  | .vBool b => [if b then 1 else 0]
  | .vUInt n => uvarEncode n
  | .vInt i => uvarEncode (zigzag i)
  | .vF32 bits => leBytes 4 bits
  | .vF64 bits => leBytes 8 bits
  | .vChar c => uvarEncode c
  | .vString bs => uvarEncode bs.length ++ bs
  | .vBytes bs => uvarEncode bs.length ++ bs
  | .vSeq xs => uvarEncode xs.length ++ encodeList xs
  | .vArray xs => encodeList xs
  | .vOption none => [0]
  | .vOption (some v) => 1 :: encodeValue v
  | .vMap es => uvarEncode es.length ++ encodePairs es
  | .vRecord fs => encodeList fs
  | .vEnum i ps => uvarEncode i ++ encodeList ps

/-- Concatenation of the encodings of a list of values (record fields,
sequence elements, enum payload), in order, with no separators (§3). -/
def encodeList : List Value → List Nat
  | [] => []
  | v :: vs => encodeValue v ++ encodeList vs

/-- Concatenation of the encodings of map entries as (key, value) pairs in
iteration order (§4.2). -/
def encodePairs : List (Value × Value) → List Nat
  | [] => []
  | (k, v) :: es => encodeValue k ++ encodeValue v ++ encodePairs es
end

mutual
/-- Modelled from the spec: `Decode(bytes, schema) → value | error` (§6),
schema-directed and consuming exactly the bytes the schema requires,
returning the unconsumed suffix.  Length/count prefixes are read as
unsigned varints at 64-bit width and the enum variant index at 32-bit
width (the spec fixes no width for either; any width wide enough for the
declared data behaves identically). -/
def decodeVal : Schema → List Nat → Except DecodeError (Value × List Nat)
  | .sBool, bytes =>
    match bytes with
    | [] => .error .truncatedInput
    | b :: rest =>
      if b = 0 then .ok (.vBool false, rest)
      else if b = 1 then .ok (.vBool true, rest)
      else .error .invalidBool
  | .sUInt w, bytes =>
    match uvarDecode w bytes with
    | .ok (n, rest) => .ok (.vUInt n, rest)
    | .error e => .error e
  | .sInt w, bytes =>
    match uvarDecode w bytes with
    | .ok (n, rest) => .ok (.vInt (unzigzag n), rest)
    | .error e => .error e
  | .sF32, bytes =>
    match readN 4 bytes with
    | .ok (bs, rest) => .ok (.vF32 (fromLE bs), rest)
    | .error e => .error e
  | .sF64, bytes =>
    match readN 8 bytes with
    | .ok (bs, rest) => .ok (.vF64 (fromLE bs), rest)
    | .error e => .error e
  | .sChar, bytes =>
    match uvarDecode 32 bytes with
    | .ok (n, rest) => .ok (.vChar n, rest)
    | .error e => .error e
  | .sString, bytes =>
    match uvarDecode 64 bytes with
    | .ok (len, r1) =>
      match readN len r1 with
      | .ok (bs, rest) =>
        if validUtf8 bs then .ok (.vString bs, rest) else .error .invalidUtf8
      | .error e => .error e
    | .error e => .error e
  | .sBytes, bytes =>
    match uvarDecode 64 bytes with
    | .ok (len, r1) =>
      match readN len r1 with
      | .ok (bs, rest) => .ok (.vBytes bs, rest)
      | .error e => .error e
    | .error e => .error e
  | .sSeq s, bytes =>
    match uvarDecode 64 bytes with
    | .ok (len, r1) =>
      match decodeN s len r1 with
      | .ok (xs, rest) => .ok (.vSeq xs, rest)
      | .error e => .error e
    | .error e => .error e
  | .sArray n s, bytes =>
    match decodeN s n bytes with
    | .ok (xs, rest) => .ok (.vArray xs, rest)
    | .error e => .error e
  | .sOption s, bytes =>
    match bytes with
    | [] => .error .truncatedInput
    | b :: rest =>
      if b = 0 then .ok (.vOption none, rest)
      else if b = 1 then
        match decodeVal s rest with
        | .ok (v, r) => .ok (.vOption (some v), r)
        | .error e => .error e
      else .error .invalidOptionTag
  | .sMap k v, bytes =>
    match uvarDecode 64 bytes with
    | .ok (len, r1) =>
      match decodePairsN k v len r1 with
      | .ok (es, rest) => .ok (.vMap es, rest)
      | .error e => .error e
    | .error e => .error e
  | .sRecord fs, bytes =>
    match decodeList fs bytes with
    | .ok (vs, rest) => .ok (.vRecord vs, rest)
    | .error e => .error e
  | .sEnum vs, bytes =>
    match uvarDecode 32 bytes with
    | .ok (i, r1) =>
      if h : i < vs.length then
        match decodeList (vs.get ⟨i, h⟩) r1 with
        | .ok (fields, rest) => .ok (.vEnum i fields, rest)
        | .error e => .error e
      else .error .unknownVariant
    | .error e => .error e
termination_by s _ => (2 * sizeOf s, 0)
decreasing_by
  all_goals simp_wf
  all_goals first
    | exact Prod.Lex.left _ _ (by omega)
    | exact Prod.Lex.right _ (by omega)
    | (have hm1 := List.sizeOf_lt_of_mem (List.getElem_mem h)
       exact Prod.Lex.left _ _ (by omega))

/-- Decode one value per schema in the field-schema list, in order
(records and enum payloads, §4.2). -/
def decodeList : List Schema → List Nat → Except DecodeError (List Value × List Nat)
  | [], bytes => .ok ([], bytes)
  | s :: ss, bytes =>
    match decodeVal s bytes with
    | .ok (v, r1) =>
      match decodeList ss r1 with
      | .ok (vs, rest) => .ok (v :: vs, rest)
      | .error e => .error e
    | .error e => .error e
termination_by ss _ => (2 * sizeOf ss, 0)
decreasing_by
  all_goals simp_wf
  all_goals exact Prod.Lex.left _ _ (by omega)

/-- Decode exactly `n` elements of schema `s` (dynamic sequences after
their count prefix, arrays with their static size, §4.2). -/
def decodeN (s : Schema) : Nat → List Nat → Except DecodeError (List Value × List Nat)
  | 0, bytes => .ok ([], bytes)
  | n + 1, bytes =>
    match decodeVal s bytes with
    | .ok (v, r1) =>
      match decodeN s n r1 with
      | .ok (xs, rest) => .ok (v :: xs, rest)
      | .error e => .error e
    | .error e => .error e
termination_by n _ => (2 * sizeOf s + 1, n)
decreasing_by
  all_goals simp_wf
  all_goals first
    | exact Prod.Lex.left _ _ (by omega)
    | exact Prod.Lex.right _ (by omega)

/-- Decode exactly `n` (key, value) entry pairs (mappings after their
count prefix, §4.2). -/
def decodePairsN (k v : Schema) : Nat → List Nat → Except DecodeError (List (Value × Value) × List Nat)
  | 0, bytes => .ok ([], bytes)
  | n + 1, bytes =>
    match decodeVal k bytes with
    | .ok (kv, r1) =>
      match decodeVal v r1 with
      | .ok (vv, r2) =>
        match decodePairsN k v n r2 with
        | .ok (es, rest) => .ok ((kv, vv) :: es, rest)
        | .error e => .error e
      | .error e => .error e
    | .error e => .error e
termination_by n _ => (2 * (sizeOf k + sizeOf v) + 1, n)
decreasing_by
  all_goals simp_wf
  all_goals first
    | exact Prod.Lex.left _ _ (by omega)
    | exact Prod.Lex.right _ (by omega)
end

/-- The representable range of a signed integer of bit width `w`
(two's complement): `-2^(w-1) ≤ i < 2^(w-1)`. -/
def intRange (w : Nat) (i : Int) : Prop :=
  -((2 ^ (w - 1) : Nat) : Int) ≤ i ∧ i < ((2 ^ (w - 1) : Nat) : Int)

/-- Is `c` a Unicode scalar value (a valid `char` codepoint)? -/
def isScalar (c : Nat) : Prop := c < 0x110000 ∧ (c < 0xD800 ∨ 0xE000 ≤ c)

/-- `HasTy v s` says the value `v` is representable at schema `s`
(§6: "a value conforming to a statically known schema").  Integer widths
are at least 1 bit, unsigned values fit their width, signed values their
two's-complement range, floats carry a bit pattern of the right size,
strings are valid UTF-8, byte-sequence elements are bytes, dynamic
sequence/mapping/string lengths fit the 64-bit count prefix, arrays have
their static length, record fields match the field schemas pointwise, and
an enum value's variant index is in range (and fits the 32-bit index
varint) with its payload matching that variant's field schemas. -/
inductive HasTy : Value → Schema → Prop where
  | bool (b : Bool) : HasTy (.vBool b) .sBool
  | uint (w n : Nat) (hw : 1 ≤ w) (h : n < 2 ^ w) : HasTy (.vUInt n) (.sUInt w)
  | int (w : Nat) (i : Int) (hw : 1 ≤ w) (h : intRange w i) : HasTy (.vInt i) (.sInt w)
  | f32 (bits : Nat) (h : bits < 2 ^ 32) : HasTy (.vF32 bits) .sF32
  | f64 (bits : Nat) (h : bits < 2 ^ 64) : HasTy (.vF64 bits) .sF64
  | char (c : Nat) (h : isScalar c) : HasTy (.vChar c) .sChar
  | str (bs : List Nat) (hlen : bs.length < 2 ^ 64) (hv : validUtf8 bs = true) :
      HasTy (.vString bs) .sString
  | bytes (bs : List Nat) (hlen : bs.length < 2 ^ 64) (hb : ∀ b ∈ bs, b < 256) :
      HasTy (.vBytes bs) .sBytes
  | seq (xs : List Value) (s : Schema) (hlen : xs.length < 2 ^ 64)
      (h : ∀ v ∈ xs, HasTy v s) : HasTy (.vSeq xs) (.sSeq s)
  | arr (xs : List Value) (n : Nat) (s : Schema) (hlen : xs.length = n)
      (h : ∀ v ∈ xs, HasTy v s) : HasTy (.vArray xs) (.sArray n s)
  | optNone (s : Schema) : HasTy (.vOption none) (.sOption s)
  | optSome (v : Value) (s : Schema) (h : HasTy v s) :
      HasTy (.vOption (some v)) (.sOption s)
  | map (es : List (Value × Value)) (k v : Schema) (hlen : es.length < 2 ^ 64)
      (hk : ∀ e ∈ es, HasTy e.1 k) (hv : ∀ e ∈ es, HasTy e.2 v) :
      HasTy (.vMap es) (.sMap k v)
  | record (fs : List Value) (ss : List Schema) (hlen : fs.length = ss.length)
      (h : ∀ p ∈ fs.zip ss, HasTy p.1 p.2) : HasTy (.vRecord fs) (.sRecord ss)
  | enum (i : Nat) (ps : List Value) (vs : List (List Schema))
      (hi : i < vs.length) (hi32 : i < 2 ^ 32)
      (hlen : ps.length = (vs.get ⟨i, hi⟩).length)
      (h : ∀ p ∈ ps.zip (vs.get ⟨i, hi⟩), HasTy p.1 p.2) :
      HasTy (.vEnum i ps) (.sEnum vs)

/-! Schemas of the fixture data model, embedded from
`src/test-fixtures/src/types.rs`.  Field order is declaration order;
enum variants are listed in declaration order as their field-schema
lists.  `Vec<u8>` is a dynamic sequence of 8-bit unsigned integers,
tuples and tuple structs are records of their components, a newtype
struct is a one-field record and a unit struct an empty record. -/

/-- `struct Primitives` (types.rs lines 6-22). -/
def PrimitivesSchema : Schema :=
  .sRecord [.sBool, .sInt 8, .sInt 16, .sInt 32, .sInt 64, .sInt 128,
    .sUInt 8, .sUInt 16, .sUInt 32, .sUInt 64, .sUInt 128,
    .sF32, .sF64, .sChar, .sString]

/-- `struct Collections` (types.rs lines 26-33). -/
def CollectionsSchema : Schema :=
  .sRecord [.sSeq (.sUInt 8), .sSeq .sString, .sArray 4 (.sUInt 32),
    .sRecord [.sUInt 16, .sString, .sBool],
    .sOption (.sInt 32), .sOption (.sInt 32)]

/-- `enum ComplexEnum` (types.rs lines 37-46): unit, newtype, tuple and
struct variants in declaration order. -/
def ComplexEnumSchema : Schema :=
  .sEnum [[], [.sUInt 32], [.sString, .sInt 32, .sBool], [.sF64, .sF64, .sString]]

/-- `struct InnerStruct` (types.rs lines 57-60). -/
def InnerStructSchema : Schema := .sRecord [.sUInt 64, .sString]

/-- `struct Nested` (types.rs lines 50-54). -/
def NestedSchema : Schema :=
  .sRecord [InnerStructSchema, .sMap .sString (.sInt 32), .sSeq InnerStructSchema]

/-- `struct EdgeCases` (types.rs lines 64-74). -/
def EdgeCasesSchema : Schema :=
  .sRecord [.sSeq (.sUInt 8), .sString, .sUInt 64, .sUInt 8, .sInt 8, .sInt 8,
    .sUInt 16, .sUInt 32, .sInt 32]

/-- `struct NewtypeStruct(pub u64)` (types.rs line 78). -/
def NewtypeStructSchema : Schema := .sRecord [.sUInt 64]

/-- `struct UnitStruct` (types.rs line 82). -/
def UnitStructSchema : Schema := .sRecord []

/-- `struct TupleStruct(pub String, pub i32, pub bool)` (types.rs line 86). -/
def TupleStructSchema : Schema := .sRecord [.sString, .sInt 32, .sBool]

/-- `struct Coordinates` (types.rs lines 124-128). -/
def CoordinatesSchema : Schema := .sRecord [.sF64, .sF64, .sF64]

/-- `enum Element` (types.rs lines 180-184). -/
def ElementSchema : Schema := .sEnum [[], [], []]

/-- `struct Weapon` (types.rs lines 172-176). -/
def WeaponSchema : Schema := .sRecord [.sString, .sUInt 16, .sOption ElementSchema]

/-- `enum Item` (types.rs lines 164-168). -/
def ItemSchema : Schema :=
  .sEnum [[.sString, .sUInt 16], [WeaponSchema], [.sUInt 16, .sUInt 8]]

/-- `struct Inventory` (types.rs lines 116-120). -/
def InventorySchema : Schema := .sRecord [.sSeq ItemSchema, .sUInt 8, .sUInt 32]

/-- `struct Player` (types.rs lines 104-112). -/
def PlayerSchema : Schema :=
  .sRecord [.sUInt 64, .sString, CoordinatesSchema, .sF32, .sUInt 16,
    InventorySchema, .sOption WeaponSchema]

/-- `enum DragonColor` (types.rs lines 156-160). -/
def DragonColorSchema : Schema := .sEnum [[], [], []]

/-- `struct DragonData` (types.rs lines 149-152). -/
def DragonDataSchema : Schema := .sRecord [DragonColorSchema, .sUInt 16]

/-- `enum Enemy` (types.rs lines 132-145). -/
def EnemySchema : Schema :=
  .sEnum [[.sUInt 32, .sBool], [DragonDataSchema], [],
    [.sString, .sUInt 8, .sF32]]

/-- `struct Location` (types.rs lines 196-200). -/
def LocationSchema : Schema := .sRecord [.sString, CoordinatesSchema, .sBool]

/-- `struct BossInfo` (types.rs lines 204-207). -/
def BossInfoSchema : Schema := .sRecord [.sString, .sUInt 8]

/-- `struct World` (types.rs lines 188-192). -/
def WorldSchema : Schema :=
  .sRecord [.sString, .sMap .sString LocationSchema, .sOption BossInfoSchema]

/-- `enum PlayerAction` (types.rs lines 220-224). -/
def PlayerActionSchema : Schema :=
  .sEnum [[CoordinatesSchema, CoordinatesSchema], [.sUInt 32], [.sString]]

/-- `enum GameEvent` (types.rs lines 211-216). -/
def GameEventSchema : Schema :=
  .sEnum [[PlayerActionSchema], [.sString, .sUInt 16], [ItemSchema], [.sString]]

/-- `enum Difficulty` (types.rs lines 236-240). -/
def DifficultySchema : Schema := .sEnum [[], [], []]

/-- `struct GameMetadata` (types.rs lines 228-232). -/
def GameMetadataSchema : Schema := .sRecord [.sString, .sUInt 64, DifficultySchema]

/-- `struct GameState` (types.rs lines 94-100). -/
def GameStateSchema : Schema :=
  .sRecord [PlayerSchema, .sSeq EnemySchema, WorldSchema,
    .sSeq GameEventSchema, GameMetadataSchema]

/-! ### Varint lemmas -/

/-- The fuel of `uvarEncodeFuel` is irrelevant once it is at least the
value being encoded. -/
theorem uvarEncodeFuel_congr : ∀ f g n : Nat, n ≤ f → n ≤ g →
    uvarEncodeFuel f n = uvarEncodeFuel g n := by
  intro f
  induction f with
  | zero =>
    intro g n hf hg
    have hn : n = 0 := by omega
    subst hn
    cases g <;> simp [uvarEncodeFuel]
  | succ f ih =>
    intro g n hf hg
    cases g with
    | zero =>
      have hn : n = 0 := by omega
      subst hn
      simp [uvarEncodeFuel]
    | succ g =>
      simp only [uvarEncodeFuel]
      by_cases h : n < 128
      · simp [h]
      · simp only [h, if_false]
        have hlt : n / 128 < n := Nat.div_lt_self (by omega) (by norm_num)
        rw [ih g (n / 128) (by omega) (by omega)]

/-- The defining equation of `uvarEncode`, fuel eliminated. -/
theorem uvarEncode_eq (n : Nat) :
    uvarEncode n = if n < 128 then [n] else (n % 128 + 128) :: uvarEncode (n / 128) := by
  show uvarEncodeFuel n n = _
  cases n with
  | zero => simp [uvarEncodeFuel]
  | succ m =>
    simp only [uvarEncodeFuel]
    by_cases h : m + 1 < 128
    · simp [h]
    · simp only [h, if_false]
      have hlt : (m + 1) / 128 < m + 1 := Nat.div_lt_self (by omega) (by norm_num)
      rw [uvarEncodeFuel_congr m ((m + 1) / 128) ((m + 1) / 128) (by omega) le_rfl]
      rfl

/-- A varint encoding is never empty. -/
theorem uvarEncode_ne_nil (n : Nat) : uvarEncode n ≠ [] := by
  rw [uvarEncode_eq]
  split <;> simp

/-- An encoded value below `2 ^ (7 * g)` spans at most `g` groups. -/
theorem uvarEncode_length_le (g n : Nat) (hg : 1 ≤ g) (h : n < 2 ^ (7 * g)) :
    (uvarEncode n).length ≤ g := by
  induction n using Nat.strong_induction_on generalizing g with
  | _ n ih =>
    rw [uvarEncode_eq]
    by_cases h128 : n < 128
    · simp only [h128, if_true, List.length_singleton]
      omega
    · simp only [h128, if_false, List.length_cons]
      have hg2 : 2 ≤ g := by
        by_contra hc
        have hg1 : g = 1 := by omega
        subst hg1
        norm_num at h
        omega
      have hpow : (2 : Nat) ^ (7 * g) = 2 ^ (7 * (g - 1)) * 128 := by
        have h7 : 7 * g = 7 * (g - 1) + 7 := by omega
        rw [h7, pow_add]
        norm_num
      have hdiv : n / 128 < 2 ^ (7 * (g - 1)) := by
        rw [Nat.div_lt_iff_lt_mul (by norm_num)]
        omega
      have hlt : n / 128 < n := Nat.div_lt_self (by omega) (by norm_num)
      have := ih (n / 128) hlt (g - 1) (by omega) hdiv
      omega

/-- Decoding the worker on an encoding followed by arbitrary bytes
consumes exactly the encoding, provided the group budget covers it and
the accumulated value fits the width. -/
theorem uvarDecodeGo_append (w : Nat) : ∀ (n g shift acc : Nat) (rest : List Nat),
    (uvarEncode n).length ≤ g →
    acc + n * 2 ^ shift < 2 ^ w →
    uvarDecodeGo w g shift acc (uvarEncode n ++ rest) = .ok (acc + n * 2 ^ shift, rest) := by
  intro n
  induction n using Nat.strong_induction_on with
  | _ n ih =>
    intro g shift acc rest hlen hval
    rw [uvarEncode_eq] at hlen ⊢
    by_cases h128 : n < 128
    · simp only [h128, if_true, List.length_singleton] at hlen ⊢
      obtain ⟨g', rfl⟩ : ∃ g', g = g' + 1 := ⟨g - 1, by omega⟩
      rw [List.singleton_append]
      show uvarDecodeGo w (g' + 1) shift acc (n :: rest) = _
      simp only [uvarDecodeGo]
      rw [if_pos h128, if_pos hval]
    · simp only [h128, if_false, List.length_cons] at hlen ⊢
      obtain ⟨g', rfl⟩ : ∃ g', g = g' + 1 := ⟨g - 1, by omega⟩
      rw [List.cons_append]
      show uvarDecodeGo w (g' + 1) shift acc ((n % 128 + 128) :: (uvarEncode (n / 128) ++ rest)) = _
      simp only [uvarDecodeGo]
      have hge : ¬(n % 128 + 128 < 128) := by omega
      rw [if_neg hge]
      have hmod : (n % 128 + 128) % 128 = n % 128 := by omega
      rw [hmod]
      have hacc : acc + n % 128 * 2 ^ shift + n / 128 * 2 ^ (shift + 7) =
          acc + n * 2 ^ shift := by
        have hsplit : n % 128 + 128 * (n / 128) = n := Nat.mod_add_div n 128
        calc acc + n % 128 * 2 ^ shift + n / 128 * 2 ^ (shift + 7)
            = acc + (n % 128 + 128 * (n / 128)) * 2 ^ shift := by
              rw [pow_add]
              ring
          _ = acc + n * 2 ^ shift := by rw [hsplit]
      have hlt : n / 128 < n := Nat.div_lt_self (by omega) (by norm_num)
      rw [ih (n / 128) hlt g' (shift + 7) (acc + n % 128 * 2 ^ shift) rest
        (by omega) (by rw [hacc]; exact hval), hacc]

/-- Round-trip at the varint level: an in-range value decodes back from
its own encoding, leaving exactly the appended suffix. -/
theorem uvarDecode_encode (w n : Nat) (rest : List Nat) (hw : 1 ≤ w) (h : n < 2 ^ w) :
    uvarDecode w (uvarEncode n ++ rest) = .ok (n, rest) := by
  have hcover : (2 : Nat) ^ w ≤ 2 ^ (7 * maxGroups w) := by
    apply Nat.pow_le_pow_right (by norm_num)
    have : 7 * ((w + 6) / 7) ≥ w := by omega
    simpa [maxGroups] using this
  have hg : 1 ≤ maxGroups w := by
    simp only [maxGroups]
    omega
  have hlen := uvarEncode_length_le (maxGroups w) n hg (by omega)
  have := uvarDecodeGo_append w n (maxGroups w) 0 0 rest hlen (by simpa using h)
  simpa [uvarDecode] using this

/-- The decode worker, characterised by the reference split: it fails
exactly when no terminating byte occurs within the group budget or when
the accumulated value does not fit the width. -/
theorem uvarDecodeGo_split (w : Nat) : ∀ (bytes : List Nat) (g shift acc : Nat),
    uvarDecodeGo w g shift acc bytes =
      match varintSplit g bytes with
      | none => .error .malformedVarint
      | some (v, r) =>
        if acc + v * 2 ^ shift < 2 ^ w then .ok (acc + v * 2 ^ shift, r)
        else .error .malformedVarint := by
  intro bytes
  induction bytes with
  | nil =>
    intro g shift acc
    cases g <;> simp [uvarDecodeGo, varintSplit]
  | cons b rest ih =>
    intro g shift acc
    cases g with
    | zero => simp [uvarDecodeGo, varintSplit]
    | succ g =>
      by_cases hb : b < 128
      · simp only [uvarDecodeGo, varintSplit, if_pos hb]
      · simp only [uvarDecodeGo, varintSplit, if_neg hb]
        rw [ih g (shift + 7) (acc + b % 128 * 2 ^ shift)]
        cases hsplit : varintSplit g rest with
        | none => simp only
        | some vr =>
          obtain ⟨v, r⟩ := vr
          simp only
          have harith : acc + b % 128 * 2 ^ shift + v * 2 ^ (shift + 7) =
              acc + (b % 128 + 128 * v) * 2 ^ shift := by
            rw [pow_add]
            ring
          rw [harith]

/-- `uvarDecode`, characterised by the reference split. -/
theorem uvarDecode_split (w : Nat) (bytes : List Nat) :
    uvarDecode w bytes =
      match varintSplit (maxGroups w) bytes with
      | none => .error .malformedVarint
      | some (v, r) => if v < 2 ^ w then .ok (v, r) else .error .malformedVarint := by
  have h := uvarDecodeGo_split w bytes (maxGroups w) 0 0
  simp only [uvarDecode, h, pow_zero, mul_one, Nat.zero_add]

/-- The zig-zag transform is injective with the stated inverse. -/
theorem unzigzag_zigzag (i : Int) : unzigzag (zigzag i) = i := by
  unfold zigzag unzigzag
  by_cases h : 0 ≤ i
  · rw [if_pos h]
    have h2 : 2 * i.toNat % 2 = 0 := by omega
    rw [if_pos h2]
    omega
  · rw [if_neg h]
    have h2 : ¬(2 * (-i).toNat - 1) % 2 = 0 := by omega
    rw [if_neg h2]
    omega

/-- A signed value in the two's-complement range of width `w` zig-zags
into the unsigned range of width `w`. -/
theorem zigzag_lt (w : Nat) (i : Int) (hw : 1 ≤ w) (h : intRange w i) : zigzag i < 2 ^ w := by
  obtain ⟨h1, h2⟩ := h
  have hk : (2 : Nat) ^ w = 2 * 2 ^ (w - 1) := by
    conv_lhs => rw [show w = (w - 1) + 1 from by omega]
    rw [pow_succ]
    ring
  rw [hk]
  unfold zigzag
  by_cases hs : 0 ≤ i
  · rw [if_pos hs]
    omega
  · rw [if_neg hs]
    omega

/-- `leBytes` always produces exactly `k` bytes. -/
theorem leBytes_length (k : Nat) : ∀ n, (leBytes k n).length = k := by
  induction k with
  | zero => intro n; rfl
  | succ k ih => intro n; simp [leBytes, ih]

/-- Little-endian recomposition inverts decomposition for values that
fit in `k` bytes. -/
theorem fromLE_leBytes (k : Nat) : ∀ n, n < 256 ^ k → fromLE (leBytes k n) = n := by
  induction k with
  | zero =>
    intro n h
    simp only [pow_zero, Nat.lt_one_iff] at h
    subst h
    rfl
  | succ k ih =>
    intro n h
    have hdiv : n / 256 < 256 ^ k := by
      rw [Nat.div_lt_iff_lt_mul (by norm_num)]
      calc n < 256 ^ (k + 1) := h
        _ = 256 ^ k * 256 := by rw [pow_succ]
    simp only [leBytes, fromLE, ih (n / 256) hdiv]
    omega

/-- Reading back exactly the bytes that were written. -/
theorem readN_append (bs rest : List Nat) : readN bs.length (bs ++ rest) = .ok (bs, rest) := by
  induction bs with
  | nil => simp [readN]
  | cons b bs ih => simp [readN, List.length_cons, List.cons_append, ih]

/-- Reading back a little-endian decomposition. -/
theorem readN_leBytes (k n : Nat) (rest : List Nat) :
    readN k (leBytes k n ++ rest) = .ok (leBytes k n, rest) := by
  have h := readN_append (leBytes k n) rest
  rwa [leBytes_length] at h

/-- Decoding a count of encoded elements recovers them, given that each
element decodes back from its own encoding. -/
theorem decodeN_append (s : Schema) (xs : List Value) : ∀ (rest : List Nat),
    (∀ v ∈ xs, ∀ r, decodeVal s (encodeValue v ++ r) = .ok (v, r)) →
    decodeN s xs.length (encodeList xs ++ rest) = .ok (xs, rest) := by
  induction xs with
  | nil =>
    intro rest _
    simp [encodeList, decodeN]
  | cons v vs ihl =>
    intro rest ih
    simp only [encodeList, List.length_cons, List.append_assoc, decodeN]
    simp only [ih v (List.mem_cons_self v vs) (encodeList vs ++ rest)]
    simp only [ihl rest (fun u hu r => ih u (List.mem_cons_of_mem v hu) r)]

/-- Decoding a record's field list recovers the fields, pointwise. -/
theorem decodeList_append (fs : List Value) : ∀ (ss : List Schema) (rest : List Nat),
    fs.length = ss.length →
    (∀ p ∈ fs.zip ss, ∀ r, decodeVal p.2 (encodeValue p.1 ++ r) = .ok (p.1, r)) →
    decodeList ss (encodeList fs ++ rest) = .ok (fs, rest) := by
  induction fs with
  | nil =>
    intro ss rest hlen _
    have hss : ss = [] := by
      cases ss
      · rfl
      · simp at hlen
    subst hss
    simp [encodeList, decodeList]
  | cons v vs ihl =>
    intro ss rest hlen ih
    cases ss with
    | nil => simp at hlen
    | cons s ss =>
      simp only [encodeList, List.append_assoc, decodeList]
      simp only [ih (v, s) (by simp) (encodeList vs ++ rest)]
      simp only [ihl ss rest (by simpa using hlen)
        (fun p hp r => ih p (by simp [List.zip_cons_cons, hp]) r)]

/-- Decoding a count of encoded (key, value) pairs recovers the entries. -/
theorem decodePairsN_append (k v : Schema) (es : List (Value × Value)) :
    ∀ (rest : List Nat),
    (∀ e ∈ es, ∀ r, decodeVal k (encodeValue e.1 ++ r) = .ok (e.1, r)) →
    (∀ e ∈ es, ∀ r, decodeVal v (encodeValue e.2 ++ r) = .ok (e.2, r)) →
    decodePairsN k v es.length (encodePairs es ++ rest) = .ok (es, rest) := by
  induction es with
  | nil =>
    intro rest _ _
    simp [encodePairs, decodePairsN]
  | cons e es ihl =>
    obtain ⟨ek, ev⟩ := e
    intro rest ihk ihv
    simp only [encodePairs, List.length_cons, List.append_assoc, decodePairsN]
    have h1 := ihk (ek, ev) (List.mem_cons_self _ _) (encodeValue ev ++ (encodePairs es ++ rest))
    have h2 := ihv (ek, ev) (List.mem_cons_self _ _) (encodePairs es ++ rest)
    simp only at h1 h2
    simp only [h1, h2]
    simp only [ihl rest (fun e he r => ihk e (List.mem_cons_of_mem _ he) r)
      (fun e he r => ihv e (List.mem_cons_of_mem _ he) r)]

/-- The round-trip law (§8): decoding the encoding of any representable
value under its schema succeeds, returns that very value, and consumes
exactly the encoding (the appended suffix is returned untouched). -/
theorem decodeVal_encodeValue (v : Value) (S : Schema) (h : HasTy v S) :
    ∀ rest, decodeVal S (encodeValue v ++ rest) = .ok (v, rest) := by
  induction h with
  | bool b =>
    intro rest
    cases b <;> simp [encodeValue, decodeVal]
  | uint w n hw hn =>
    intro rest
    simp only [encodeValue, decodeVal, uvarDecode_encode w n rest hw hn]
  | int w i hw hr =>
    intro rest
    simp only [encodeValue, decodeVal,
      uvarDecode_encode w (zigzag i) rest hw (zigzag_lt w i hw hr), unzigzag_zigzag]
  | f32 bits hb =>
    intro rest
    have h4 : bits < 256 ^ 4 := by norm_num at hb ⊢; omega
    simp only [encodeValue, decodeVal, readN_leBytes, fromLE_leBytes 4 bits h4]
  | f64 bits hb =>
    intro rest
    have h8 : bits < 256 ^ 8 := by norm_num at hb ⊢; omega
    simp only [encodeValue, decodeVal, readN_leBytes, fromLE_leBytes 8 bits h8]
  | char c hc =>
    intro rest
    have hc32 : c < 2 ^ 32 := by
      have h1 := hc.1
      norm_num at h1 ⊢
      omega
    simp only [encodeValue, decodeVal, uvarDecode_encode 32 c rest (by norm_num) hc32]
  | str bs hlen hv =>
    intro rest
    simp only [encodeValue, decodeVal, List.append_assoc,
      uvarDecode_encode 64 bs.length (bs ++ rest) (by norm_num) hlen,
      readN_append, hv, if_true]
  | bytes bs hlen hb =>
    intro rest
    simp only [encodeValue, decodeVal, List.append_assoc,
      uvarDecode_encode 64 bs.length (bs ++ rest) (by norm_num) hlen,
      readN_append]
  | seq xs s hlen hall ih =>
    intro rest
    simp only [encodeValue, decodeVal, List.append_assoc,
      uvarDecode_encode 64 xs.length (encodeList xs ++ rest) (by norm_num) hlen,
      decodeN_append s xs rest ih]
  | arr xs n s hlen hall ih =>
    intro rest
    subst hlen
    simp only [encodeValue, decodeVal, decodeN_append s xs rest ih]
  | optNone s =>
    intro rest
    simp [encodeValue, decodeVal]
  | optSome v s h ih =>
    intro rest
    simp [encodeValue, decodeVal, List.cons_append, ih rest]
  | map es k v hlen hk hv ihk ihv =>
    intro rest
    simp only [encodeValue, decodeVal, List.append_assoc,
      uvarDecode_encode 64 es.length (encodePairs es ++ rest) (by norm_num) hlen,
      decodePairsN_append k v es rest ihk ihv]
  | record fs ss hlen hall ih =>
    intro rest
    simp only [encodeValue, decodeVal, decodeList_append fs ss rest hlen ih]
  | enum i ps vs hi hi32 hlen hall ih =>
    intro rest
    simp only [encodeValue, decodeVal, List.append_assoc,
      uvarDecode_encode 32 i (encodeList ps ++ rest) (by norm_num) hi32]
    rw [dif_pos hi]
    simp only [decodeList_append ps (vs.get ⟨i, hi⟩) rest hlen ih]

/-- Stripping the continuation bit from every emitted byte leaves exactly
the base-128 digits of the value, least-significant first (`Nat.digits`
gives `[]` for zero, where the encoder emits the single byte 0). -/
theorem uvarEncode_digits (n : Nat) :
    (uvarEncode n).map (fun b => b % 128) = if n = 0 then [0] else Nat.digits 128 n := by
  induction n using Nat.strong_induction_on with
  | _ n ih =>
    rw [uvarEncode_eq]
    by_cases h0 : n = 0
    · subst h0
      simp
    · rw [if_neg h0]
      by_cases h128 : n < 128
      · rw [if_pos h128]
        rw [Nat.digits_def' (by norm_num : (1 : Nat) < 128) (by omega : 0 < n)]
        have hz : n / 128 = 0 := by omega
        simp [hz, Nat.mod_eq_of_lt h128]
      · rw [if_neg h128]
        simp only [List.map_cons]
        rw [ih (n / 128) (Nat.div_lt_self (by omega) (by norm_num))]
        rw [if_neg (by omega : ¬n / 128 = 0)]
        rw [Nat.digits_def' (by norm_num : (1 : Nat) < 128) (by omega : 0 < n)]
        congr 1
        omega

/-- Every byte of an encoding except the last carries the continuation
bit. -/
theorem uvarEncode_dropLast (n : Nat) : ∀ b ∈ (uvarEncode n).dropLast, 128 ≤ b := by
  induction n using Nat.strong_induction_on with
  | _ n ih =>
    rw [uvarEncode_eq]
    by_cases h128 : n < 128
    · rw [if_pos h128]
      simp
    · rw [if_neg h128]
      rw [List.dropLast_cons_of_ne_nil (uvarEncode_ne_nil (n / 128))]
      intro b hb
      rcases List.mem_cons.mp hb with hb | hb
      · omega
      · exact ih (n / 128) (Nat.div_lt_self (by omega) (by norm_num)) b hb

/-- The last byte of an encoding has a clear high bit. -/
theorem uvarEncode_last (n : Nat) : ∀ b : Nat, (uvarEncode n).getLast? = some b → b < 128 := by
  induction n using Nat.strong_induction_on with
  | _ n ih =>
    intro b hb
    rw [uvarEncode_eq] at hb
    by_cases h128 : n < 128
    · rw [if_pos h128] at hb
      simp at hb
      omega
    · rw [if_neg h128] at hb
      cases he : uvarEncode (n / 128) with
      | nil => exact absurd he (uvarEncode_ne_nil _)
      | cons x xs =>
        rw [he, List.getLast?_cons_cons, ← he] at hb
        exact ih (n / 128) (Nat.div_lt_self (by omega) (by norm_num)) b hb

/-- Order-independent equality on values (§3): mappings compare as
multisets of entries (any permutation of the entry list), everything else
structurally and pointwise.  Mapping entries are compared literally after
reordering, which is exact for the fixture data model: its map keys and
values (`String`, `i32`, `Location`) never themselves contain a mapping. -/
inductive VEquiv : Value → Value → Prop where
  | bool (b : Bool) : VEquiv (.vBool b) (.vBool b)
  | uint (n : Nat) : VEquiv (.vUInt n) (.vUInt n)
  | int (i : Int) : VEquiv (.vInt i) (.vInt i)
  | f32 (bits : Nat) : VEquiv (.vF32 bits) (.vF32 bits)
  | f64 (bits : Nat) : VEquiv (.vF64 bits) (.vF64 bits)
  | char (c : Nat) : VEquiv (.vChar c) (.vChar c)
  | str (bs : List Nat) : VEquiv (.vString bs) (.vString bs)
  | bytes (bs : List Nat) : VEquiv (.vBytes bs) (.vBytes bs)
  | seq (xs ys : List Value) (hlen : xs.length = ys.length)
      (h : ∀ p ∈ xs.zip ys, VEquiv p.1 p.2) : VEquiv (.vSeq xs) (.vSeq ys)
  | arr (xs ys : List Value) (hlen : xs.length = ys.length)
      (h : ∀ p ∈ xs.zip ys, VEquiv p.1 p.2) : VEquiv (.vArray xs) (.vArray ys)
  | optNone : VEquiv (.vOption none) (.vOption none)
  | optSome (v w : Value) (h : VEquiv v w) : VEquiv (.vOption (some v)) (.vOption (some w))
  | map (es fs : List (Value × Value)) (h : es.Perm fs) : VEquiv (.vMap es) (.vMap fs)
  | record (xs ys : List Value) (hlen : xs.length = ys.length)
      (h : ∀ p ∈ xs.zip ys, VEquiv p.1 p.2) : VEquiv (.vRecord xs) (.vRecord ys)
  | enum (i : Nat) (ps qs : List Value) (hlen : ps.length = qs.length)
      (h : ∀ p ∈ ps.zip qs, VEquiv p.1 p.2) : VEquiv (.vEnum i ps) (.vEnum i qs)

mutual
/-- Does every mapping contained in the value have at most one entry?
(Under this restriction, order-independent equality collapses to literal
equality, so encoding determinism holds even across reordered maps.) -/
def smallMaps : Value → Bool
  | .vSeq xs => smallMapsList xs
  | .vArray xs => smallMapsList xs
  | .vOption none => true
  | .vOption (some v) => smallMaps v
  | .vMap es => decide (es.length ≤ 1) && smallMapsPairs es
  | .vRecord fs => smallMapsList fs
  | .vEnum _ ps => smallMapsList ps
  | _ => true

/-- `smallMaps` over a list of values. -/
def smallMapsList : List Value → Bool
  | [] => true
  | v :: vs => smallMaps v && smallMapsList vs

/-- `smallMaps` over a list of entry pairs. -/
def smallMapsPairs : List (Value × Value) → Bool
  | [] => true
  | (k, v) :: es => smallMaps k && smallMaps v && smallMapsPairs es
end

/-- Members of a `smallMapsList`-true list satisfy `smallMaps`. -/
theorem smallMapsList_mem : ∀ xs : List Value, smallMapsList xs = true →
    ∀ v ∈ xs, smallMaps v = true := by
  intro xs
  induction xs with
  | nil =>
    intro _ v hv
    simp at hv
  | cons x xs ih =>
    intro h v hv
    simp only [smallMapsList, Bool.and_eq_true] at h
    rcases List.mem_cons.mp hv with rfl | hv
    · exact h.1
    · exact ih h.2 v hv

/-- Two lists of equal length whose zipped pairs agree are equal. -/
theorem list_eq_of_zip_eq {α : Type} : ∀ xs ys : List α, xs.length = ys.length →
    (∀ p ∈ xs.zip ys, p.1 = p.2) → xs = ys := by
  intro xs
  induction xs with
  | nil =>
    intro ys hlen _
    cases ys
    · rfl
    · simp at hlen
  | cons x xs ih =>
    intro ys hlen hall
    cases ys with
    | nil => simp at hlen
    | cons y ys =>
      have hx : x = y := hall (x, y) (by simp)
      have hxs : xs = ys := ih ys (by simpa using hlen)
        (fun p hp => hall p (by simp [List.zip_cons_cons, hp]))
      rw [hx, hxs]

/-- Order-independent equality collapses to literal equality when every
contained mapping has at most one entry. -/
theorem vequiv_eq (v w : Value) (h : VEquiv v w) : smallMaps v = true → v = w := by
  induction h with
  | bool b => intro _; rfl
  | uint n => intro _; rfl
  | int i => intro _; rfl
  | f32 bits => intro _; rfl
  | f64 bits => intro _; rfl
  | char c => intro _; rfl
  | str bs => intro _; rfl
  | bytes bs => intro _; rfl
  | seq xs ys hlen hall ih =>
    intro hs
    simp only [smallMaps] at hs
    congr 1
    apply list_eq_of_zip_eq xs ys hlen
    intro p hp
    obtain ⟨a, b⟩ := p
    exact ih (a, b) hp (smallMapsList_mem xs hs a (List.of_mem_zip hp).1)
  | arr xs ys hlen hall ih =>
    intro hs
    simp only [smallMaps] at hs
    congr 1
    apply list_eq_of_zip_eq xs ys hlen
    intro p hp
    obtain ⟨a, b⟩ := p
    exact ih (a, b) hp (smallMapsList_mem xs hs a (List.of_mem_zip hp).1)
  | optNone => intro _; rfl
  | optSome v w h ih =>
    intro hs
    simp only [smallMaps] at hs
    rw [ih hs]
  | map es fs hperm =>
    intro hs
    simp only [smallMaps, Bool.and_eq_true, decide_eq_true_eq] at hs
    congr 1
    cases es with
    | nil => exact hperm.nil_eq
    | cons e es' =>
      have hnil : es' = [] := by
        cases es' with
        | nil => rfl
        | cons _ _ =>
          have := hs.1
          simp at this
      subst hnil
      exact List.singleton_perm.mp hperm
  | record xs ys hlen hall ih =>
    intro hs
    simp only [smallMaps] at hs
    congr 1
    apply list_eq_of_zip_eq xs ys hlen
    intro p hp
    obtain ⟨a, b⟩ := p
    exact ih (a, b) hp (smallMapsList_mem xs hs a (List.of_mem_zip hp).1)
  | enum i ps qs hlen hall ih =>
    intro hs
    simp only [smallMaps] at hs
    congr 1
    apply list_eq_of_zip_eq ps qs hlen
    intro p hp
    obtain ⟨a, b⟩ := p
    exact ih (a, b) hp (smallMapsList_mem ps hs a (List.of_mem_zip hp).1)

/-! ### Claim theorems -/

/-- A concrete `InnerStruct` fixture value (`id = 12345`,
`name = "primary"`, main.rs lines 72-75), used to witness the round-trip
law. -/
def innerVal : Value := .vRecord [.vUInt 12345, .vString [112, 114, 105, 109, 97, 114, 121]]

/-- `innerVal` conforms to the `InnerStruct` schema. -/
theorem innerVal_hasTy : HasTy innerVal InnerStructSchema := by
  unfold innerVal InnerStructSchema
  refine HasTy.record _ _ rfl ?_
  intro p hp
  simp only [List.zip_cons_cons, List.zip_nil_left, List.mem_cons, List.not_mem_nil,
    or_false] at hp
  rcases hp with rfl | rfl
  · exact HasTy.uint 64 12345 (by norm_num) (by norm_num)
  · exact HasTy.str _ (by norm_num) (by decide)

/-- C1: the round-trip law.  For every value `v` representable at a
schema `S` of the data model (which covers every type of types.rs,
including nested structs, enums, maps, options and 128-bit integers),
decoding the encoding of `v` at `S` succeeds and returns exactly `v`,
consuming exactly the encoding.  The returned value is literally equal to
the original — in particular the mapping entries come back in encoding
order, so equality holds a fortiori under the order-independent mapping
equality of §3. -/
theorem round_trip_law (v : Value) (S : Schema) (h : HasTy v S) (rest : List Nat) :
    decodeVal S (encodeValue v ++ rest) = .ok (v, rest) :=
  decodeVal_encodeValue v S h rest

/-- Witness for C1 at the concrete `InnerStruct` fixture value. -/
theorem round_trip_law_witness :
    decodeVal InnerStructSchema (encodeValue innerVal ++ []) = .ok (innerVal, []) :=
  round_trip_law innerVal InnerStructSchema innerVal_hasTy []

/-- C2: the unsigned varint encoder emits the value's base-128 digits
least-significant first (7 bits per byte), with the continuation bit set
on every byte except the last and clear on the last; zero encodes as the
single byte 0x00; `true` encodes as the single byte 0x01; 300 encodes as
0xAC 0x02; and 0xAC 0x02 decodes back to 300. -/
theorem unsigned_varint_encoding :
    (∀ n : Nat,
        (uvarEncode n).map (fun b => b % 128) = (if n = 0 then [0] else Nat.digits 128 n)
      ∧ (∀ b ∈ (uvarEncode n).dropLast, 128 ≤ b)
      ∧ (∀ b : Nat, (uvarEncode n).getLast? = some b → b < 128))
  ∧ uvarEncode 0 = [0x00]
  ∧ encodeValue (.vBool true) = [0x01]
  ∧ uvarEncode 300 = [0xAC, 0x02]
  ∧ uvarDecode 32 [0xAC, 0x02] = .ok (300, []) := by
  refine ⟨fun n => ⟨uvarEncode_digits n, uvarEncode_dropLast n, uvarEncode_last n⟩,
    by decide, ?_, by decide, by rfl⟩
  simp [encodeValue]

/-- Witness for C2: the first byte of the encoding of 300 carries the
continuation bit, the last does not. -/
theorem unsigned_varint_encoding_witness : 128 ≤ 0xAC ∧ (2 : Nat) < 128 :=
  ⟨(unsigned_varint_encoding.1 300).2.1 0xAC (by decide),
   (unsigned_varint_encoding.1 300).2.2 2 (by decide)⟩

/-- C3: signed integers are encoded by zig-zag transforming (non-negative
`n` to `2n`, negative `n` to `2|n| - 1`) and then unsigned-varint
encoding; signed decode inverts the transform after unsigned decode; and
`Some(5 : i32)` encodes as 0x01 followed by 0x0A. -/
theorem zigzag_signed_encoding :
    (∀ i : Int, encodeValue (.vInt i) = uvarEncode (zigzag i))
  ∧ (∀ i : Int, 0 ≤ i → (zigzag i : Int) = 2 * i)
  ∧ (∀ i : Int, i < 0 → (zigzag i : Int) = 2 * (-i) - 1)
  ∧ (∀ i : Int, unzigzag (zigzag i) = i)
  ∧ (∀ (w : Nat) (i : Int) (rest : List Nat), 1 ≤ w → intRange w i →
      decodeVal (.sInt w) (encodeValue (.vInt i) ++ rest) = .ok (.vInt i, rest))
  ∧ encodeValue (.vOption (some (.vInt 5))) = [0x01, 0x0A] := by
  refine ⟨fun i => by simp [encodeValue], ?_, ?_, unzigzag_zigzag, ?_, ?_⟩
  · intro i h
    simp only [zigzag, if_pos h]
    omega
  · intro i h
    rw [zigzag, if_neg (by omega)]
    omega
  · intro w i rest hw hr
    exact decodeVal_encodeValue (.vInt i) (.sInt w) (HasTy.int w i hw hr) rest
  · simp [encodeValue]
    decide

/-- Witness for C3: both zig-zag branches at concrete values, and the
fixture's `negative: -999999` (main.rs line 100) decoding back at width
32. -/
theorem zigzag_signed_encoding_witness :
    ((zigzag 150 : Int) = 300) ∧ ((zigzag (-150) : Int) = 299)
  ∧ decodeVal (.sInt 32) (encodeValue (.vInt (-999999)) ++ []) = .ok (.vInt (-999999), []) :=
  ⟨zigzag_signed_encoding.2.1 150 (by decide),
   zigzag_signed_encoding.2.2.1 (-150) (by decide),
   zigzag_signed_encoding.2.2.2.2.1 32 (-999999) [] (by norm_num)
     (by constructor <;> norm_num [intRange])⟩

/-- C4: every fixed-width integer, for every width 8 through 128 bits, is
encoded variable-length — as an unsigned varint for unsigned types and as
a zig-zag (sign-folded) varint for signed types.  The encoding depends
only on the value, never on the declared width, so an i8/u8 field goes
through exactly the same varint byte layout as the wider widths: u8's
maximum 255 takes two varint bytes 0xFF 0x01 (not one fixed byte), i8's
minimum -128 zig-zags to the same two bytes, and both decode back at
width 8 and at every wider width. -/
theorem fixed_width_ints_use_varints :
    (∀ n : Nat, encodeValue (.vUInt n) = uvarEncode n)
  ∧ (∀ i : Int, encodeValue (.vInt i) = uvarEncode (zigzag i))
  ∧ encodeValue (.vUInt 255) = [0xFF, 0x01]
  ∧ encodeValue (.vInt (-128)) = [0xFF, 0x01]
  ∧ (∀ w : Nat, 8 ≤ w → ∀ rest : List Nat,
      decodeVal (.sUInt w) (encodeValue (.vUInt 255) ++ rest) = .ok (.vUInt 255, rest))
  ∧ (∀ w : Nat, 8 ≤ w → ∀ rest : List Nat,
      decodeVal (.sInt w) (encodeValue (.vInt (-128)) ++ rest) = .ok (.vInt (-128), rest)) := by
  refine ⟨fun n => by simp [encodeValue], fun i => by simp [encodeValue], ?_, ?_, ?_, ?_⟩
  · simp [encodeValue]
    decide
  · simp [encodeValue]
    decide
  · intro w hw rest
    have hpow : (2 : Nat) ^ 8 ≤ 2 ^ w := Nat.pow_le_pow_right (by norm_num) hw
    refine decodeVal_encodeValue _ _ (HasTy.uint w 255 (by omega) ?_) rest
    norm_num at hpow
    omega
  · intro w hw rest
    have hpow : (2 : Nat) ^ 7 ≤ 2 ^ (w - 1) :=
      Nat.pow_le_pow_right (by norm_num) (by omega)
    refine decodeVal_encodeValue _ _ (HasTy.int w (-128) (by omega) ?_) rest
    norm_num at hpow
    constructor <;> omega

/-- Witness for C4: the u8 and i8 boundary values decode back at width
8 itself. -/
theorem fixed_width_ints_use_varints_witness :
    decodeVal (.sUInt 8) (encodeValue (.vUInt 255) ++ []) = .ok (.vUInt 255, [])
  ∧ decodeVal (.sInt 8) (encodeValue (.vInt (-128)) ++ []) = .ok (.vInt (-128), []) :=
  ⟨fixed_width_ints_use_varints.2.2.2.2.1 8 (by norm_num) [],
   fixed_width_ints_use_varints.2.2.2.2.2 8 (by norm_num) []⟩

/-- C5: a char is encoded as its Unicode scalar value written as a single
unsigned varint — no length prefix and no UTF-8 byte sequence — and
decoding recovers the same scalar.  The fixture character '🦀' (U+1F980,
main.rs line 29) encodes as the three varint bytes 0x80 0xF3 0x07 (its
UTF-8 form would be the four bytes F0 9F A6 80) and decodes back. -/
theorem char_codepoint_varint :
    (∀ c : Nat, encodeValue (.vChar c) = uvarEncode c)
  ∧ (∀ (c : Nat) (rest : List Nat), isScalar c →
      decodeVal .sChar (encodeValue (.vChar c) ++ rest) = .ok (.vChar c, rest))
  ∧ encodeValue (.vChar 0x1F980) = [0x80, 0xF3, 0x07]
  ∧ decodeVal .sChar [0x80, 0xF3, 0x07] = .ok (.vChar 0x1F980, []) := by
  have hdec : ∀ (c : Nat) (rest : List Nat), isScalar c →
      decodeVal .sChar (encodeValue (.vChar c) ++ rest) = .ok (.vChar c, rest) :=
    fun c rest hc => decodeVal_encodeValue (.vChar c) .sChar (HasTy.char c hc) rest
  have henc : encodeValue (.vChar 0x1F980) = [0x80, 0xF3, 0x07] := by
    simp [encodeValue]
    decide
  refine ⟨fun c => by simp [encodeValue], hdec, henc, ?_⟩
  have h := hdec 0x1F980 [] (by constructor <;> norm_num [isScalar])
  rw [henc] at h
  simpa using h

/-- Witness for C5: the ASCII scalar 65 round-trips through the char
codec. -/
theorem char_codepoint_varint_witness :
    decodeVal .sChar (encodeValue (.vChar 65) ++ []) = .ok (.vChar 65, []) :=
  char_codepoint_varint.2.1 65 [] (by constructor <;> norm_num [isScalar])

/-- C6: an optional value is one discriminant byte — 0x00 for absent with
no further bytes, 0x01 for present followed by the payload — and, at the
point of reading an option, decode fails with `InvalidOptionTag` if and
only if the discriminant byte is neither 0 nor 1 (stated as an exact
equivalence for a boolean payload, whose own decoder never produces
`InvalidOptionTag`). -/
theorem option_discriminant :
    encodeValue (.vOption none) = [0x00]
  ∧ (∀ v : Value, encodeValue (.vOption (some v)) = 1 :: encodeValue v)
  ∧ (∀ (s : Schema) (b : Nat) (rest : List Nat), b ≠ 0 → b ≠ 1 →
      decodeVal (.sOption s) (b :: rest) = .error .invalidOptionTag)
  ∧ (∀ (b : Nat) (rest : List Nat),
      decodeVal (.sOption .sBool) (b :: rest) = .error .invalidOptionTag ↔
        (b ≠ 0 ∧ b ≠ 1)) := by
  have htag : ∀ (s : Schema) (b : Nat) (rest : List Nat), b ≠ 0 → b ≠ 1 →
      decodeVal (.sOption s) (b :: rest) = .error .invalidOptionTag := by
    intro s b rest h0 h1
    simp [decodeVal, h0, h1]
  refine ⟨by simp [encodeValue], fun v => by simp [encodeValue], htag, ?_⟩
  intro b rest
  constructor
  · intro h
    by_cases hb0 : b = 0
    · subst hb0
      simp [decodeVal] at h
    by_cases hb1 : b = 1
    · subst hb1
      exfalso
      cases rest with
      | nil => simp [decodeVal] at h
      | cons b2 r =>
        by_cases h2 : b2 = 0
        · simp [decodeVal, h2] at h
        by_cases h3 : b2 = 1
        · simp [decodeVal, h2, h3] at h
        · simp [decodeVal, h2, h3] at h
    · exact ⟨hb0, hb1⟩
  · rintro ⟨h0, h1⟩
    exact htag .sBool b rest h0 h1

/-- Witness for C6: the byte 0x02 is rejected as an option discriminant. -/
theorem option_discriminant_witness :
    decodeVal (.sOption .sBool) (2 :: []) = .error .invalidOptionTag :=
  option_discriminant.2.2.1 .sBool 2 [] (by decide) (by decide)

/-- C7: unsigned varint decode fails, always with `MalformedVarint`,
exactly when the reference split finds no terminating (clear-high-bit)
byte within the group budget for the width — covering both a buffer
exhausted before a terminator and a budget overrun — or when the split
value's magnitude does not fit the declared bit width; otherwise it
succeeds with exactly the split value and suffix.  For the 128-bit width
the budget is 19 seven-bit groups, u128::MAX itself decodes successfully,
and the encoding of 2^128 (whose bits beyond the 128-bit range are
nonzero) is rejected. -/
theorem varint_decode_failure :
    (∀ (w : Nat) (bytes : List Nat),
        uvarDecode w bytes = .error .malformedVarint ↔
          (varintSplit (maxGroups w) bytes = none ∨
            ∃ v r, varintSplit (maxGroups w) bytes = some (v, r) ∧ 2 ^ w ≤ v))
  ∧ (∀ (w : Nat) (bytes : List Nat) (v : Nat) (r : List Nat),
        uvarDecode w bytes = .ok (v, r) ↔
          (varintSplit (maxGroups w) bytes = some (v, r) ∧ v < 2 ^ w))
  ∧ maxGroups 128 = 19
  ∧ uvarDecode 128 (uvarEncode (2 ^ 128 - 1)) = .ok (2 ^ 128 - 1, [])
  ∧ uvarDecode 128 (uvarEncode (2 ^ 128)) = .error .malformedVarint := by
  refine ⟨?_, ?_, rfl, by rfl, by rfl⟩
  · intro w bytes
    rw [uvarDecode_split]
    cases hsplit : varintSplit (maxGroups w) bytes with
    | none => simp
    | some vr =>
      obtain ⟨v, r⟩ := vr
      simp only
      by_cases hv : v < 2 ^ w
      · rw [if_pos hv]
        constructor
        · intro h
          exact absurd h (by simp)
        · rintro (h | ⟨v', r', heq, hge⟩)
          · exact absurd h (by simp)
          · simp only [Option.some.injEq, Prod.mk.injEq] at heq
            obtain ⟨rfl, rfl⟩ := heq
            omega
      · rw [if_neg hv]
        constructor
        · intro _
          exact Or.inr ⟨v, r, rfl, by omega⟩
        · intro _
          rfl
  · intro w bytes v r
    rw [uvarDecode_split]
    cases hsplit : varintSplit (maxGroups w) bytes with
    | none => simp
    | some vr =>
      obtain ⟨v', r'⟩ := vr
      simp only
      by_cases hv' : v' < 2 ^ w
      · rw [if_pos hv']
        constructor
        · intro h
          simp only [Except.ok.injEq, Prod.mk.injEq] at h
          obtain ⟨rfl, rfl⟩ := h
          exact ⟨rfl, hv'⟩
        · rintro ⟨heq, hlt⟩
          simp only [Option.some.injEq, Prod.mk.injEq] at heq
          obtain ⟨rfl, rfl⟩ := heq
          rfl
      · rw [if_neg hv']
        constructor
        · intro h
          exact absurd h (by simp)
        · rintro ⟨heq, hlt⟩
          simp only [Option.some.injEq, Prod.mk.injEq] at heq
          obtain ⟨rfl, rfl⟩ := heq
          omega

/-- Witness for C7: a buffer that is all continuation bytes is rejected
as a malformed varint. -/
theorem varint_decode_failure_witness :
    uvarDecode 64 [0x80] = .error .malformedVarint :=
  (varint_decode_failure.1 64 [0x80]).mpr (Or.inl (by decide))

/-- C8: a sum-type value is encoded as the zero-based declaration-order
index of its active variant written as an unsigned varint, followed by
the plain concatenation of the payload's encodings (nothing for a unit
variant, one value for a newtype variant, concatenated values for tuple
and struct variants); decode reads the index first, fails with
`UnknownVariant` whenever it is at or beyond the declared variant count,
and otherwise stands or falls with that variant's payload decoder. -/
theorem enum_variant_encoding :
    (∀ (i : Nat) (ps : List Value), encodeValue (.vEnum i ps) = uvarEncode i ++ encodeList ps)
  ∧ encodeList [] = []
  ∧ (∀ v : Value, encodeList [v] = encodeValue v)
  ∧ (∀ (v : Value) (vs : List Value), encodeList (v :: vs) = encodeValue v ++ encodeList vs)
  ∧ (∀ (vs : List (List Schema)) (i : Nat) (rest : List Nat), i < 2 ^ 32 → vs.length ≤ i →
      decodeVal (.sEnum vs) (uvarEncode i ++ rest) = .error .unknownVariant)
  ∧ (∀ (vs : List (List Schema)) (i : Nat) (rest : List Nat) (h : i < vs.length), i < 2 ^ 32 →
      ((∀ (fields : List Value) (r2 : List Nat),
          decodeList (vs.get ⟨i, h⟩) rest = .ok (fields, r2) →
          decodeVal (.sEnum vs) (uvarEncode i ++ rest) = .ok (.vEnum i fields, r2))
        ∧ (∀ e : DecodeError,
          decodeList (vs.get ⟨i, h⟩) rest = .error e →
          decodeVal (.sEnum vs) (uvarEncode i ++ rest) = .error e))) := by
  refine ⟨fun i ps => by simp [encodeValue], by simp [encodeList],
    fun v => by simp [encodeList], fun v vs => by simp [encodeList], ?_, ?_⟩
  · intro vs i rest h32 hge
    simp only [decodeVal, uvarDecode_encode 32 i rest (by norm_num) h32]
    rw [dif_neg (by omega)]
  · intro vs i rest h h32
    constructor
    · intro fields r2 hdl
      simp only [decodeVal, uvarDecode_encode 32 i rest (by norm_num) h32]
      rw [dif_pos h]
      rw [List.get_eq_getElem] at hdl
      simp [hdl]
    · intro e hdl
      simp only [decodeVal, uvarDecode_encode 32 i rest (by norm_num) h32]
      rw [dif_pos h]
      rw [List.get_eq_getElem] at hdl
      simp [hdl]

/-- Witness for C8: variant index 9 is out of range for the four-variant
`ComplexEnum`, and decoding the unit variant's encoding dispatches to the
empty payload decoder. -/
theorem enum_variant_encoding_witness :
    decodeVal ComplexEnumSchema (uvarEncode 9 ++ []) = .error .unknownVariant
  ∧ decodeVal ComplexEnumSchema (uvarEncode 0 ++ []) = .ok (.vEnum 0 [], []) :=
  ⟨enum_variant_encoding.2.2.2.2.1
      [[], [.sUInt 32], [.sString, .sInt 32, .sBool], [.sF64, .sF64, .sString]] 9 []
      (by norm_num) (by norm_num),
   (enum_variant_encoding.2.2.2.2.2
      [[], [.sUInt 32], [.sString, .sInt 32, .sBool], [.sF64, .sF64, .sString]] 0 []
      (by norm_num) (by norm_num)).1 [] [] (by simp [decodeList])⟩

/-- A two-entry `HashMap<String, i32>` value ("a" ↦ 100, "b" ↦ 200) in
one iteration order. -/
def mapAlpha : Value := .vMap [(.vString [97], .vInt 100), (.vString [98], .vInt 200)]

/-- The same two-entry mapping with its entries in the other iteration
order; equal to `mapAlpha` under the order-independent mapping equality. -/
def mapBeta : Value := .vMap [(.vString [98], .vInt 200), (.vString [97], .vInt 100)]

/-- C9 counterexample: two representable values of the fixture data model
(two-entry `HashMap<String, i32>` instances) that are equal under the
order-independent mapping equality of §3 yet encode to different byte
sequences, because the entry iteration order is part of the encoding.
Encoding is therefore not deterministic on equal values once a mapping
has more than one entry. -/
theorem encode_determinism_counterexample :
    HasTy mapAlpha (.sMap .sString (.sInt 32))
  ∧ HasTy mapBeta (.sMap .sString (.sInt 32))
  ∧ VEquiv mapAlpha mapBeta
  ∧ encodeValue mapAlpha ≠ encodeValue mapBeta := by
  have hint : ∀ n : Int, n = 100 ∨ n = 200 → HasTy (.vInt n) (.sInt 32) := by
    rintro n (rfl | rfl) <;>
      exact HasTy.int 32 _ (by norm_num) (by constructor <;> norm_num [intRange])
  have hstr : ∀ b : Nat, b = 97 ∨ b = 98 → HasTy (.vString [b]) .sString := by
    rintro b (rfl | rfl) <;> exact HasTy.str _ (by norm_num) (by decide)
  refine ⟨?_, ?_, ?_, ?_⟩
  · unfold mapAlpha
    refine HasTy.map _ _ _ (by norm_num) ?_ ?_ <;> intro e he <;>
      simp only [List.mem_cons, List.not_mem_nil, or_false] at he <;>
      rcases he with rfl | rfl
    · exact hstr 97 (Or.inl rfl)
    · exact hstr 98 (Or.inr rfl)
    · exact hint 100 (Or.inl rfl)
    · exact hint 200 (Or.inr rfl)
  · unfold mapBeta
    refine HasTy.map _ _ _ (by norm_num) ?_ ?_ <;> intro e he <;>
      simp only [List.mem_cons, List.not_mem_nil, or_false] at he <;>
      rcases he with rfl | rfl
    · exact hstr 98 (Or.inr rfl)
    · exact hstr 97 (Or.inl rfl)
    · exact hint 200 (Or.inr rfl)
    · exact hint 100 (Or.inl rfl)
  · exact VEquiv.map _ _ (List.Perm.swap _ _ _)
  · have e1 : uvarEncode 1 = [1] := by decide
    have e2 : uvarEncode 2 = [2] := by decide
    have e200 : uvarEncode 200 = [200, 1] := by decide
    have e400 : uvarEncode 400 = [144, 3] := by decide
    have z100 : zigzag 100 = 200 := by decide
    have z200 : zigzag 200 = 400 := by decide
    have h1 : encodeValue mapAlpha = [2, 1, 97, 200, 1, 1, 98, 144, 3] := by
      simp [mapAlpha, encodeValue, encodePairs, z100, z200, e1, e2, e200, e400]
    have h2 : encodeValue mapBeta = [2, 1, 98, 144, 3, 1, 97, 200, 1] := by
      simp [mapBeta, encodeValue, encodePairs, z100, z200, e1, e2, e200, e400]
    rw [h1, h2]
    decide

/-- C9 (amended): encoding is a pure function of the in-memory value, so
syntactically equal values always produce identical byte sequences; and
order-independent-equal values produce identical byte sequences whenever
every contained mapping has at most one entry.  For a mapping with more
than one entry, order-independent-equal values may encode differently
(see the counterexample), exactly the caveat §8/§9 of the spec leave
open. -/
theorem encode_deterministic_modulo_map_order :
    (∀ v1 v2 : Value, v1 = v2 → encodeValue v1 = encodeValue v2)
  ∧ (∀ v1 v2 : Value, VEquiv v1 v2 → smallMaps v1 = true →
      encodeValue v1 = encodeValue v2) := by
  refine ⟨fun v1 v2 h => h ▸ rfl, fun v1 v2 h hs => ?_⟩
  rw [vequiv_eq v1 v2 h hs]

/-- A single-entry mapping value. -/
def singletonMapVal : Value := .vMap [(.vString [97], .vInt 1)]

/-- Witness for the amended C9 at a concrete single-entry mapping. -/
theorem encode_deterministic_modulo_map_order_witness :
    encodeValue singletonMapVal = encodeValue singletonMapVal :=
  encode_deterministic_modulo_map_order.2 singletonMapVal singletonMapVal
    (VEquiv.map _ _ (List.Perm.refl _))
    (by simp [singletonMapVal, smallMaps, smallMapsPairs])

/-- C10: the boolean decoder accepts exactly the two bytes the boolean
encoder can produce — 0x00 decodes to false, 0x01 to true, and every
other byte is rejected with an error rather than coerced. -/
theorem bool_decode_strict :
    (∀ b : Bool, encodeValue (.vBool b) = [if b then 1 else 0])
  ∧ (∀ rest : List Nat, decodeVal .sBool (0 :: rest) = .ok (.vBool false, rest))
  ∧ (∀ rest : List Nat, decodeVal .sBool (1 :: rest) = .ok (.vBool true, rest))
  ∧ (∀ (b : Nat) (rest : List Nat), b ≠ 0 → b ≠ 1 →
      decodeVal .sBool (b :: rest) = .error .invalidBool)
  ∧ (∀ (b : Nat) (rest : List Nat),
      (∃ v r, decodeVal .sBool (b :: rest) = .ok (v, r)) ↔ (b = 0 ∨ b = 1)) := by
  have hbad : ∀ (b : Nat) (rest : List Nat), b ≠ 0 → b ≠ 1 →
      decodeVal .sBool (b :: rest) = .error .invalidBool := by
    intro b rest h0 h1
    simp [decodeVal, h0, h1]
  refine ⟨fun b => by simp [encodeValue], fun rest => by simp [decodeVal],
    fun rest => by simp [decodeVal], hbad, ?_⟩
  intro b rest
  constructor
  · rintro ⟨v, r, h⟩
    by_contra hc
    push_neg at hc
    rw [hbad b rest hc.1 hc.2] at h
    exact Except.noConfusion h
  · rintro (rfl | rfl)
    · exact ⟨.vBool false, rest, by simp [decodeVal]⟩
    · exact ⟨.vBool true, rest, by simp [decodeVal]⟩

/-- Witness for C10: the byte 0x02 is rejected rather than coerced to
true. -/
theorem bool_decode_strict_witness :
    decodeVal .sBool (2 :: []) = .error .invalidBool :=
  bool_decode_strict.2.2.2.1 2 [] (by decide) (by decide)
